import Mathlib

/-!
Shallow embedding of the rust9cc compiler pipeline:
lexer (src/token.rs), recursive-descent parser (src/parse.rs) and
stack-machine code generator (src/lib.rs), together with theorems
checking the natural-language specification against this code.
-/

namespace Rust9cc

/-- Source location, mirroring `Loc` in src/token.rs. -/
structure Loc where
  line : Nat
  col : Nat
deriving DecidableEq, Repr

/-- Token kinds, mirroring `TokenKind` in src/token.rs. -/
inductive TokenKind where
  | num (n : Nat)
  | plus
  | minus
  | mul
  | div
  | lparen
  | rparen
  | eq
  | neq
  | lt
  | leq
  | gt
  | geq
  | eof
deriving DecidableEq, Repr

/-- A token with its location, mirroring `Token` in src/token.rs. -/
structure Token where
  kind : TokenKind
  loc : Loc
deriving DecidableEq, Repr

/-- Rust `char::is_digit(10)` on ASCII input: decimal digit test. -/
def isDigitChar (c : Char) : Bool :=
  48 ≤ c.toNat && c.toNat ≤ 57

/-- Value of a digit string, as produced by `str::parse::<u64>` on the
digit buffer collected by `InputReader::consume_number`. -/
def digitsVal (ds : List Char) : Nat :=
  ds.foldl (fun a c => 10 * a + (c.toNat - 48)) 0

/-- The constant 2^64, the exclusive upper bound of `u64`. -/
def U64 : Nat := 2 ^ 64

/-- The two-character operator table of `tokenize` (src/token.rs lines
129-141), checked before single-character operators. -/
def twoCharOp (a b : Char) : Option TokenKind :=
  if a = '=' && b = '=' then some .eq
  else if a = '!' && b = '=' then some .neq
  else if a = '<' && b = '=' then some .leq
  else if a = '>' && b = '=' then some .geq
  else none

/-- The single-character operator table of `tokenize` (src/token.rs lines
143-159). -/
def oneCharOp (a : Char) : Option TokenKind :=
  if a = '+' then some .plus
  else if a = '-' then some .minus
  else if a = '*' then some .mul
  else if a = '/' then some .div
  else if a = '(' then some .lparen
  else if a = ')' then some .rparen
  else if a = '<' then some .lt
  else if a = '>' then some .gt
  else none

/-- Rust `InputReader::advance` on the location component (src/token.rs lines
74-89).  Faithful to the source: when the consumed span contains a newline
the column resets to 0 and the line is incremented; otherwise the column
is incremented by ONE, regardless of how many characters were consumed. -/
def advanceLoc (loc : Loc) (span : List Char) : Loc :=
  if span.contains '\n' then ⟨loc.line + 1, 0⟩ else ⟨loc.line, loc.col + 1⟩

/-- Location after `consume_number`, which advances one character at a
time over the digit run. -/
def advanceChars (loc : Loc) (span : List Char) : Loc :=
  span.foldl (fun l c => advanceLoc l [c]) loc

/-- Result of tokenization.  `panic` models the Rust panics: the
`reader.peek().unwrap()` on an empty reader (src/token.rs line 171,
reached by an overflowing digit run at end of input), and the
`str::split_at` calls of `head(1)`/`head(2)` landing inside a multi-byte
character; `fuelOut` is an artifact of the fuel-based encoding and is
proven unreachable for sufficient fuel. -/
inductive TokResult where
  | ok (ts : List Token)
  | err (c : Char) (loc : Loc)
  | panic
  | fuelOut
deriving DecidableEq, Repr

/-- Prepend a token to a successful tokenization, propagating failures. -/
def tokAfter (k : TokenKind) (loc : Loc) (res : TokResult) : TokResult :=
  match res with
  | .ok ts => .ok (⟨k, loc⟩ :: ts)
  | e => e

/-- UTF-8 byte length of a character, as used by Rust string byte
indexing (`str::len`, `str::split_at`). -/
def charBytes (c : Char) : Nat :=
  if c.toNat < 128 then 1
  else if c.toNat < 2048 then 2
  else if c.toNat < 65536 then 3
  else 4

/-- Rust `InputReader::head` (src/token.rs lines 108-114) calls
`str::split_at(n)` with a BYTE index, which panics when the index falls
inside a character.  With the cursor on `c` and `rest` behind it:
`head(2)` panics when byte offset 2 is not a character boundary (a 3- or
4-byte `c`, or a 1-byte `c` followed by a multi-byte character), and the
subsequent `head(1)` panics whenever `c` itself is multi-byte (a 2-byte
`c` survives `head(2)` — the two-byte head is just `c`, which matches no
operator — and then dies in `head(1)`).  Collectively the iteration
panics exactly when `c` is multi-byte, or `c` is single-byte and the
next character is multi-byte. -/
def headPanics (c : Char) (rest : List Char) : Bool :=
  decide (2 ≤ charBytes c) ||
    (match rest with
     | c2 :: _ => decide (2 ≤ charBytes c2)
     | [] => false)

/-- Every character is a single UTF-8 byte (ASCII). -/
def allAscii (cs : List Char) : Bool := cs.all fun c => charBytes c = 1

/-- The `reader.head(2)` two-character-operator test of `tokenize`
(src/token.rs lines 129-141): given the character under the cursor and
the remaining input, return the matched operator kind, the second
character of the span and the rest of the input behind it. -/
def twoOpSplit (rest : List Char) (c : Char) : Option (TokenKind × Char × List Char) :=
  match rest with
  | c2 :: rest2 =>
    match twoCharOp c c2 with
    | some k => some (k, c2, rest2)
    | none => none
  | [] => none

/-- The main loop of `tokenize` (src/token.rs lines 117-181), one
recursive step per loop iteration, fueled for structural recursion.
Order of rules mirrors the source: space skip, two-character operators,
single-character operators, digit run, then the `TokenizeError` return
whose `peek().unwrap()` panics when the reader was exhausted by an
overflowing digit run. -/
def tokenizeGo (fuel : Nat) (cs : List Char) (loc : Loc) : TokResult :=
  match fuel with
  | 0 => .fuelOut
  | fuel + 1 =>
    match cs with
    | [] => .ok [⟨.eof, loc⟩]
    | c :: rest =>
      if c = ' ' then tokenizeGo fuel rest (advanceLoc loc [c])
      else if headPanics c rest then .panic
      else
        match twoOpSplit rest c with
        | some (k, c2, rest2) =>
          tokAfter k loc (tokenizeGo fuel rest2 (advanceLoc loc [c, c2]))
        | none =>
          match oneCharOp c with
          | some k => tokAfter k loc (tokenizeGo fuel rest (advanceLoc loc [c]))
          | none =>
            if isDigitChar c then
              let ds := List.takeWhile isDigitChar (c :: rest)
              let rest2 := List.dropWhile isDigitChar (c :: rest)
              if digitsVal ds < U64 then
                tokAfter (.num (digitsVal ds)) loc (tokenizeGo fuel rest2 (advanceChars loc ds))
              else
                match rest2 with
                | [] => .panic
                | c2 :: _ => .err c2 loc
            else .err c loc

/-- Rust `tokenize` (src/token.rs lines 117-181): run the loop from location
(0, 0) with enough fuel for the whole input. -/
def tokenize (cs : List Char) : TokResult :=
  tokenizeGo (cs.length + 1) cs ⟨0, 0⟩

/-- AST node kinds, mirroring `NodeKind` in src/parse.rs. -/
inductive NodeKind where
  | add
  | sub
  | mul
  | div
  | eq
  | neq
  | lt
  | leq
  | gt
  | geq
  | num (n : Nat)
deriving DecidableEq, Repr

/-- AST node, mirroring `Node` in src/parse.rs: a kind together with
optional owned left and right children. -/
inductive Node where
  | mk (kind : NodeKind) (lhs rhs : Option Node)

/-- Rust `Node::new_num`: a leaf holding a numeric literal. -/
def Node.newNum (n : Nat) : Node := .mk (.num n) none none

/-- A binary node with both children present, as built by the parser via
`Node::new(kind, node.make_ref(), sub(tokens)?.make_ref())`. -/
def Node.bin (k : NodeKind) (l r : Node) : Node := .mk k (some l) (some r)

/-- Parse errors.  `notPeekable` is the "Not peekable." context error of
`expect`/`expect_number`; `expectMismatch` and `expectedNum` are their
kind-mismatch errors (src/token.rs lines 198-227); `outOfFuel` is an
artifact of the fuel-based encoding, proven unreachable for sufficient
fuel. -/
inductive PErr where
  | notPeekable
  | expectMismatch (expected actual : TokenKind)
  | expectedNum (actual : TokenKind)
  | outOfFuel
deriving DecidableEq, Repr

/-- Grammar rules of the recursive-descent parser in src/parse.rs.  The
five binary levels (`expr`, `equality`, `relational`, `add`, `mul`) all
share the same Rust shape — parse one operand at the next level, then
loop consuming one of the level's operator tokens and folding a parent
node around the accumulated left side — so that shape is captured once:
`seqLevel sub ops` parses a `sub` operand and enters `binLoop`, and
`binLoop sub ops acc` is the folding loop with accumulated left operand
`acc`; `ops` is the level's ordered operator table (token kind mapped to
node kind). -/
inductive Rule where
  | expr
  | equality
  | relational
  | add
  | mul
  | unary
  | primary
  | seqLevel (sub : Rule) (ops : List (TokenKind × NodeKind))
  | binLoop (sub : Rule) (ops : List (TokenKind × NodeKind)) (acc : Node)

/-- Rust `consume(kind, tokens)` (src/token.rs lines 184-195): advance iff the
head token has the expected kind. -/
def consumeTok (k : TokenKind) (ts : List Token) : Option (List Token) :=
  match ts with
  | t :: rest => if t.kind = k then some rest else none
  | [] => none

/-- Rust `expect(kind, tokens)` (src/token.rs lines 198-212): fail with the
"Not peekable." context error on an exhausted stream, fail with the
kind-mismatch error when the head differs, advance otherwise. -/
def expectTok (k : TokenKind) (ts : List Token) : Except PErr (List Token) :=
  match ts with
  | [] => .error .notPeekable
  | t :: rest => if t.kind = k then .ok rest else .error (.expectMismatch k t.kind)

/-- Rust `expect_number(tokens)` (src/token.rs lines 215-227): fail with the
"Not peekable." context error on an exhausted stream, return the literal
value and advance when the head is a `Num`, fail otherwise. -/
def expectNumber (ts : List Token) : Except PErr (Nat × List Token) :=
  match ts with
  | [] => .error .notPeekable
  | t :: rest =>
    match t.kind with
    | .num v => .ok (v, rest)
    | k => .error (.expectedNum k)

/-- Operator table of the extra `+`/`-` folding loop inside `expr`
(src/parse.rs lines 55-63) — present in the source even though `expr` is
documented as `expr = equality`. -/
def exprOps : List (TokenKind × NodeKind) := [(.plus, .add), (.minus, .sub)]

/-- Operator table of `equality` (src/parse.rs lines 68-91). -/
def equalityOps : List (TokenKind × NodeKind) := [(.eq, .eq), (.neq, .neq)]

/-- Operator table of `relational` (src/parse.rs lines 94-113). -/
def relationalOps : List (TokenKind × NodeKind) :=
  [(.lt, .lt), (.leq, .leq), (.gt, .gt), (.geq, .geq)]

/-- Operator table of `add` (src/parse.rs lines 116-131). -/
def addOps : List (TokenKind × NodeKind) := [(.plus, .add), (.minus, .sub)]

/-- Operator table of `mul` (src/parse.rs lines 134-149). -/
def mulOps : List (TokenKind × NodeKind) := [(.mul, .mul), (.div, .div)]

/-- The mutually recursive parser of src/parse.rs (`expr`, `equality`,
`relational`, `add`, `mul`, `unary`, `primary`, lines 50-184), encoded as
one fueled function dispatching on the rule; every recursive call
decrements the fuel, making the recursion structural.  Each named binary
level delegates to `seqLevel`/`binLoop` with its operand rule and
operator table; the chain of sequential `consume` tests in each Rust
`loop` is the ordered lookup `ops.find?` on the head token's kind. -/
def parseGo (fuel : Nat) (r : Rule) (ts : List Token) :
    Except PErr (Node × List Token) :=
  match fuel with
  | 0 => .error .outOfFuel
  | fuel + 1 =>
    match r with
    | .expr => parseGo fuel (.seqLevel .equality exprOps) ts
    | .equality => parseGo fuel (.seqLevel .relational equalityOps) ts
    | .relational => parseGo fuel (.seqLevel .add relationalOps) ts
    | .add => parseGo fuel (.seqLevel .mul addOps) ts
    | .mul => parseGo fuel (.seqLevel .unary mulOps) ts
    | .seqLevel sub ops =>
      match parseGo fuel sub ts with
      | .error e => .error e
      | .ok (n, rest) => parseGo fuel (.binLoop sub ops n) rest
    | .binLoop sub ops acc =>
      match ts with
      | [] => .ok (acc, ts)
      | t :: rest =>
        match ops.find? (fun p => p.1 = t.kind) with
        | some (_, nk) =>
          match parseGo fuel sub rest with
          | .error e => .error e
          | .ok (m, rest2) => parseGo fuel (.binLoop sub ops (Node.bin nk acc m)) rest2
        | none => .ok (acc, ts)
    | .unary =>
      match consumeTok .plus ts with
      | some rest => parseGo fuel .primary rest
      | none =>
        match consumeTok .minus ts with
        | some rest =>
          match parseGo fuel .primary rest with
          | .error e => .error e
          | .ok (m, rest2) => .ok (Node.bin .sub (Node.newNum 0) m, rest2)
        | none => parseGo fuel .primary ts
    | .primary =>
      match consumeTok .lparen ts with
      | some rest =>
        match parseGo fuel .expr rest with
        | .error e => .error e
        | .ok (n, rest2) =>
          match expectTok .rparen rest2 with
          | .error e => .error e
          | .ok rest3 => .ok (n, rest3)
      | none =>
        match expectNumber ts with
        | .error e => .error e
        | .ok (v, rest) => .ok (Node.newNum v, rest)

/-- Outcome of `parse_into_ast` (src/parse.rs lines 187-197).  `panic`
models the unchecked `tokens.peek().unwrap()` on an exhausted stream;
`err` carries either a propagated parse error or the trailing-token
error. -/
inductive ParseOutcome where
  | ok (n : Node)
  | err (e : PErr)
  | trailing (t : Token)
  | panic

/-- Fuel sufficient for any parse of `ts`, established by the adequacy
theorem below. -/
def parseFuel (ts : List Token) : Nat := 20 * ts.length + 12

/-- Rust `parse_into_ast` (src/parse.rs lines 187-197): run `expr`, then
`peek().unwrap()` the next token and require `Eof`. -/
def parseIntoAst (ts : List Token) : ParseOutcome :=
  match parseGo (parseFuel ts) .expr ts with
  | .error e => .err e
  | .ok (n, rest) =>
    match rest with
    | [] => .panic
    | t :: _ => if t.kind = .eof then .ok n else .trailing t

/-- The front half of the pipeline as wired in src/main.rs: tokenize,
then parse; `none` when tokenization fails or parsing does not return a
tree. -/
def astOf (s : String) : Option Node :=
  match tokenize s.data with
  | .ok ts =>
    match parseIntoAst ts with
    | .ok n => some n
    | _ => none
  | _ => none

/-- The parse outcome of a string that tokenizes successfully. -/
def parseOutcomeOf (s : String) : Option ParseOutcome :=
  match tokenize s.data with
  | .ok ts => some (parseIntoAst ts)
  | _ => none

/-- Stack-machine instructions corresponding to the assembly emitted by
`gen_main` (src/lib.rs lines 292-332): `push {num}` for a leaf, and the
pop-pop-combine-push blocks for the four binary operators. -/
inductive Instr where
  | push (n : Nat)
  | add
  | sub
  | mul
  | div
deriving DecidableEq, Repr

/-- Errors of `gen_main`: the two missing-child context errors and the
"Expected binary operator but got {kind}" error of the catch-all match
arm (src/lib.rs lines 322-327). -/
inductive GenErr where
  | nullLhs
  | nullRhs
  | notBinary (k : NodeKind)
deriving DecidableEq, Repr

/-- The operator dispatch of `gen_main` (src/lib.rs lines 314-328): only
`Add`, `Sub`, `Mul`, `Div` emit instructions; every other kind falls into
the error arm. -/
def opInstr : NodeKind → Option Instr
  | .add => some .add
  | .sub => some .sub
  | .mul => some .mul
  | .div => some .div
  | _ => none

/-- Rust `gen_main` (src/lib.rs lines 292-332) as a compiler to the stack
machine: a `Num` leaf pushes its literal; otherwise the left child is
checked and generated, then the right child, then the operator block is
emitted. -/
def genMain : Node → Except GenErr (List Instr)
  | .mk k l r =>
    match k with
    | .num n => .ok [.push n]
    | _ =>
    match l, r with
    | none, _ => .error .nullLhs
    | some ln, none =>
      match genMain ln with
      | .error e => .error e
      | .ok _ => .error .nullRhs
    | some ln, some rn =>
      match genMain ln with
      | .error e => .error e
      | .ok il =>
        match genMain rn with
        | .error e => .error e
        | .ok ir =>
          match opInstr k with
          | some i => .ok (il ++ ir ++ [i])
          | none => .error (.notBinary k)

/-- The constant 2^64 as an integer: the modulus of 64-bit machine words. -/
def wordM : Int := 2 ^ 64

/-- The constant 2^63: the boundary of the signed 64-bit range. -/
def halfM : Int := 2 ^ 63

/-- Two's-complement reading of a machine word in [0, 2^64). -/
def toSInt (w : Int) : Int := if w < halfM then w else w - wordM

/-- A word in [0, 2^64) representing the integer `v`. -/
def toWord (v : Int) : Int := v % wordM

/-- Pop the two operands of a binary operation: the stack top goes to
`rdi` (second operand), the next value to `rax` (first operand). -/
def pop2 (s : List Int) : Option (Int × Int × List Int) :=
  match s with
  | b :: a :: s2 => some (b, a, s2)
  | _ => none

/-- Execution of the emitted instructions on the implicit evaluation
stack (top of stack = head of list, i.e. the value `pop rdi` would
receive).  Arithmetic is 64-bit: `add`/`sub`/`imul` wrap modulo 2^64;
`cqo; idiv rdi` divides the two's-complement readings, truncating toward
zero, and faults (`none`) on division by zero or quotient overflow. -/
def runM : List Instr → List Int → Option (List Int)
  | [], s => some s
  | .push n :: is, s => runM is ((n : Int) % wordM :: s)
  | .add :: is, s =>
    match pop2 s with
    | some (b, a, s2) => runM is ((a + b) % wordM :: s2)
    | none => none
  | .sub :: is, s =>
    match pop2 s with
    | some (b, a, s2) => runM is ((a - b) % wordM :: s2)
    | none => none
  | .mul :: is, s =>
    match pop2 s with
    | some (b, a, s2) => runM is ((a * b) % wordM :: s2)
    | none => none
  | .div :: is, s =>
    match pop2 s with
    | some (b, a, s2) =>
      if toSInt b = 0 then none
      else
        if (toSInt a).tdiv (toSInt b) < -halfM ∨ halfM ≤ (toSInt a).tdiv (toSInt b) then none
        else runM is ((toSInt a).tdiv (toSInt b) % wordM :: s2)
    | none => none

/-- The value computed by the generated program of `gen` (src/lib.rs
lines 279-290): generate code for the root, run it on an empty stack and
pop the single remaining value (`pop rax; ret`). -/
def machineEval (e : Node) : Option Int :=
  match genMain e with
  | .error _ => none
  | .ok is =>
    match runM is [] with
    | some [w] => some w
    | _ => none

/-- Direct evaluation of an expression tree, written from the spec's
words (spec section 8, evaluation round-trip): standard integer
arithmetic, division truncating toward zero and undefined on a zero
divisor, comparisons yielding 1 when they hold and 0 otherwise. -/
def evalSpec : Node → Option Int
  | .mk k l r =>
    match k with
    | .num n => some (n : Int)
    | _ =>
    match l, r with
    | some a, some b =>
      match evalSpec a, evalSpec b with
      | some x, some y =>
        match k with
        | .add => some (x + y)
        | .sub => some (x - y)
        | .mul => some (x * y)
        | .div => if y = 0 then none else some (x.tdiv y)
        | .eq => some (if x = y then 1 else 0)
        | .neq => some (if x = y then 0 else 1)
        | .lt => some (if x < y then 1 else 0)
        | .leq => some (if x ≤ y then 1 else 0)
        | .gt => some (if y < x then 1 else 0)
        | .geq => some (if y ≤ x then 1 else 0)
        | .num _ => none
      | _, _ => none
    | _, _ => none

/-- The node uses only the operators `gen_main` implements (`Add`, `Sub`,
`Mul`, `Div`) besides numeric leaves, and every operator node has both
children. -/
def arithOnly : Node → Bool
  | .mk k l r =>
    match k with
    | .num _ => true
    | _ =>
      (match k with | .add | .sub | .mul | .div => true | _ => false)
      && (match l with | some a => arithOnly a | none => false)
      && (match r with | some b => arithOnly b | none => false)

/-- Scan a character list, accumulating the value of the current digit
run; `true` iff every maximal digit run has value below 2^64 (so
`str::parse::<u64>` never fails inside `tokenize`). -/
def runsOk : List Char → Nat → Bool
  | [], acc => decide (acc < U64)
  | c :: rest, acc =>
    if isDigitChar c then runsOk rest (10 * acc + (c.toNat - 48))
    else decide (acc < U64) && runsOk rest 0

/-- The token list contains an `Eof` token. -/
def hasEof (ts : List Token) : Bool := ts.any fun t => t.kind = .eof

/-- Fuel weight of a rule: `parseGo fuel r ts` cannot run out of fuel
when `20 * ts.length + ruleW r ≤ fuel` (adequacy theorem below). -/
def ruleW : Rule → Nat
  | .primary => 1
  | .unary => 2
  | .mul => 4
  | .add => 6
  | .relational => 8
  | .equality => 10
  | .expr => 12
  | .seqLevel sub _ => ruleW sub + 1
  | .binLoop _ _ _ => 1

/-- Well-formed rules: the operand rule of a level is light enough for
the fuel accounting and no operator table ever consumes `Eof`.  All
rules reachable from `expr` are well-formed. -/
def wfRule : Rule → Bool
  | .seqLevel sub ops =>
    wfRule sub && decide (ruleW sub ≤ 20) && ops.all fun p => !(p.1 == TokenKind.eof)
  | .binLoop sub ops _ =>
    wfRule sub && decide (ruleW sub ≤ 20) && ops.all fun p => !(p.1 == TokenKind.eof)
  | _ => true

/-- The integer is representable as a signed 64-bit value. -/
def inRangeB (v : Int) : Bool := decide (-halfM ≤ v) && decide (v < halfM)

/-- The evaluation result exists and fits the signed 64-bit range. -/
def okRange (o : Option Int) : Bool :=
  match o with
  | some v => inRangeB v
  | none => false

/-- Every node of the tree evaluates, and every intermediate value fits
the signed 64-bit range. -/
def allInRange : Node → Bool
  | .mk k l r =>
    okRange (evalSpec (.mk k l r))
    && (match l with | some a => allInRange a | none => true)
    && (match r with | some b => allInRange b | none => true)

/-- Induction principle for `Node` through its optional children. -/
def Node.recAll {P : Node → Prop}
    (h : ∀ k l r, (∀ a, l = some a → P a) → (∀ b, r = some b → P b) → P (.mk k l r)) :
    ∀ n, P n
  | .mk k none none =>
    h k none none (fun a ha => Option.noConfusion ha) (fun b hb => Option.noConfusion hb)
  | .mk k (some a) none =>
    h k (some a) none (fun x hx => Option.some.inj hx ▸ Node.recAll h a)
      (fun b hb => Option.noConfusion hb)
  | .mk k none (some b) =>
    h k none (some b) (fun a ha => Option.noConfusion ha)
      (fun x hx => Option.some.inj hx ▸ Node.recAll h b)
  | .mk k (some a) (some b) =>
    h k (some a) (some b) (fun x hx => Option.some.inj hx ▸ Node.recAll h a)
      (fun x hx => Option.some.inj hx ▸ Node.recAll h b)

end Rust9cc

section TokenizeScratch
open Rust9cc

example : tokenize "".data = .ok [⟨.eof, ⟨0, 0⟩⟩] := rfl

-- matches the expected value of `test_tokenize` in src/token.rs
example : tokenize "  2 * (1+23) - 456 / 7".data = .ok
    [⟨.num 2, ⟨0, 2⟩⟩, ⟨.mul, ⟨0, 4⟩⟩, ⟨.lparen, ⟨0, 6⟩⟩, ⟨.num 1, ⟨0, 7⟩⟩,
     ⟨.plus, ⟨0, 8⟩⟩, ⟨.num 23, ⟨0, 9⟩⟩, ⟨.rparen, ⟨0, 11⟩⟩, ⟨.minus, ⟨0, 13⟩⟩,
     ⟨.num 456, ⟨0, 15⟩⟩, ⟨.div, ⟨0, 19⟩⟩, ⟨.num 7, ⟨0, 21⟩⟩, ⟨.eof, ⟨0, 22⟩⟩] := rfl

example : tokenize "(2)".data = .ok
    [⟨.lparen, ⟨0, 0⟩⟩, ⟨.num 2, ⟨0, 1⟩⟩, ⟨.rparen, ⟨0, 2⟩⟩, ⟨.eof, ⟨0, 3⟩⟩] := rfl

example : tokenize "<=1".data = .ok
    [⟨.leq, ⟨0, 0⟩⟩, ⟨.num 1, ⟨0, 1⟩⟩, ⟨.eof, ⟨0, 2⟩⟩] := rfl

example : tokenize "1 & 2".data = .err '&' ⟨0, 2⟩ := rfl

example : tokenize "18446744073709551616".data = .panic := rfl

example : tokenize "18446744073709551615".data = .ok
    [⟨.num 18446744073709551615, ⟨0, 0⟩⟩, ⟨.eof, ⟨0, 20⟩⟩] := rfl

-- byte-boundary panics of head(): a multi-byte char at the cursor dies
-- in head(1)'s split_at(1); an ASCII char followed by a multi-byte char
-- dies in head(2)'s split_at(2)
example : tokenize "é".data = .panic := rfl

example : tokenize "aé".data = .panic := rfl

example : tokenize "1é".data = .panic := rfl

example : tokenize " é".data = .panic := rfl

end TokenizeScratch

section ParseScratch
open Rust9cc

example : astOf "1-2-3" =
    some (Node.bin .sub (Node.bin .sub (Node.newNum 1) (Node.newNum 2)) (Node.newNum 3)) := rfl

example : astOf "1+2*3" =
    some (Node.bin .add (Node.newNum 1) (Node.bin .mul (Node.newNum 2) (Node.newNum 3))) := rfl

example : astOf "(1+2)*3" =
    some (Node.bin .mul (Node.bin .add (Node.newNum 1) (Node.newNum 2)) (Node.newNum 3)) := rfl

example : astOf "-5" = some (Node.bin .sub (Node.newNum 0) (Node.newNum 5)) := rfl

example : parseOutcomeOf "1+" = some (.err (.expectedNum .eof)) := rfl

example : parseIntoAst [⟨.num 1, ⟨0, 0⟩⟩] = .panic := rfl

example : astOf "1==1" = some (Node.bin .eq (Node.newNum 1) (Node.newNum 1)) := rfl

example : astOf "1<=2==3" =
    some (Node.bin .eq (Node.bin .leq (Node.newNum 1) (Node.newNum 2)) (Node.newNum 3)) := rfl

end ParseScratch

section GenScratch
open Rust9cc

example : genMain (Node.bin .sub (Node.newNum 0) (Node.newNum 5)) =
    .ok [.push 0, .push 5, .sub] := rfl

example : machineEval (Node.bin .sub (Node.newNum 0) (Node.newNum 5)) =
    some (2 ^ 64 - 5) := by decide

example : evalSpec (Node.bin .sub (Node.newNum 0) (Node.newNum 5)) = some (-5) := by decide

example : genMain (Node.bin .eq (Node.newNum 1) (Node.newNum 1)) =
    .error (.notBinary .eq) := rfl

example : machineEval (Node.bin .div (Node.newNum 7) (Node.newNum 2)) = some 3 := by decide

example : evalSpec (Node.bin .div (Node.bin .sub (Node.newNum 0) (Node.newNum 7)) (Node.newNum 2)) =
    some (-3) := by decide

example : machineEval (Node.bin .div (Node.bin .sub (Node.newNum 0) (Node.newNum 7)) (Node.newNum 2)) =
    some (2 ^ 64 - 3) := by decide

example : arithOnly (Node.bin .eq (Node.newNum 1) (Node.newNum 1)) = false := by decide

example : allInRange (Node.bin .sub (Node.newNum 0) (Node.newNum 5)) = true := by decide

end GenScratch

namespace Rust9cc

theorem length_dropWhile_le (p : Char → Bool) (l : List Char) :
    (l.dropWhile p).length ≤ l.length := by
  induction l with
  | nil => simp
  | cons a l ih =>
    rw [List.dropWhile_cons]
    split
    · simp only [List.length_cons]
      omega
    · simp

theorem tokAfter_ne_panic {k : TokenKind} {loc : Loc} {r : TokResult}
    (h : r ≠ .panic) : tokAfter k loc r ≠ .panic := by
  cases r <;> simp_all [tokAfter]

theorem tokAfter_ne_fuelOut {k : TokenKind} {loc : Loc} {r : TokResult}
    (h : r ≠ .fuelOut) : tokAfter k loc r ≠ .fuelOut := by
  cases r <;> simp_all [tokAfter]

theorem isDigitChar_ne {c d : Char} (h : isDigitChar c = true)
    (hd : isDigitChar d = false) : c ≠ d := by
  intro he
  rw [he, hd] at h
  cases h

theorem charBytes_of_digit {c : Char} (h : isDigitChar c = true) :
    charBytes c = 1 := by
  have h2 : 48 ≤ c.toNat ∧ c.toNat ≤ 57 := by
    simpa [isDigitChar, Bool.and_eq_true, decide_eq_true_eq] using h
  simp only [charBytes]
  rw [if_pos (by omega)]

theorem allAscii_cons {c : Char} {rest : List Char}
    (h : allAscii (c :: rest) = true) :
    charBytes c = 1 ∧ allAscii rest = true := by
  simpa [allAscii, List.all_cons, Bool.and_eq_true, decide_eq_true_eq] using h

theorem headPanics_false {c : Char} {rest : List Char}
    (h : allAscii (c :: rest) = true) : headPanics c rest = false := by
  obtain ⟨h1, h2⟩ := allAscii_cons h
  cases rest with
  | nil => simp [headPanics, h1]
  | cons c2 r2 =>
    obtain ⟨h3, _⟩ := allAscii_cons h2
    simp [headPanics, h1, h3]

theorem allAscii_dropWhile (p : Char → Bool) (cs : List Char)
    (h : allAscii cs = true) : allAscii (cs.dropWhile p) = true := by
  induction cs with
  | nil => simpa using h
  | cons c rest ih =>
    rw [List.dropWhile_cons]
    obtain ⟨h1, h2⟩ := allAscii_cons h
    split
    · exact ih h2
    · exact h

theorem twoCharOp_digit {a b : Char} (ha : isDigitChar a = true) :
    twoCharOp a b = none := by
  have h1 : a ≠ '=' := isDigitChar_ne ha (by decide)
  have h2 : a ≠ '!' := isDigitChar_ne ha (by decide)
  have h3 : a ≠ '<' := isDigitChar_ne ha (by decide)
  have h4 : a ≠ '>' := isDigitChar_ne ha (by decide)
  simp [twoCharOp, h1, h2, h3, h4]

theorem oneCharOp_digit {a : Char} (ha : isDigitChar a = true) :
    oneCharOp a = none := by
  have h1 : a ≠ '+' := isDigitChar_ne ha (by decide)
  have h2 : a ≠ '-' := isDigitChar_ne ha (by decide)
  have h3 : a ≠ '*' := isDigitChar_ne ha (by decide)
  have h4 : a ≠ '/' := isDigitChar_ne ha (by decide)
  have h5 : a ≠ '(' := isDigitChar_ne ha (by decide)
  have h6 : a ≠ ')' := isDigitChar_ne ha (by decide)
  have h7 : a ≠ '<' := isDigitChar_ne ha (by decide)
  have h8 : a ≠ '>' := isDigitChar_ne ha (by decide)
  simp [oneCharOp, h1, h2, h3, h4, h5, h6, h7, h8]

theorem twoCharOp_some_not_digit {a b : Char} {k : TokenKind}
    (h : twoCharOp a b = some k) :
    isDigitChar a = false ∧ isDigitChar b = false := by
  unfold twoCharOp at h
  split_ifs at h with h1 h2 h3 h4 <;>
    first
      | (simp only [Bool.and_eq_true, decide_eq_true_eq] at h1
         obtain ⟨rfl, rfl⟩ := h1
         exact ⟨by decide, by decide⟩)
      | (simp only [Bool.and_eq_true, decide_eq_true_eq] at h2
         obtain ⟨rfl, rfl⟩ := h2
         exact ⟨by decide, by decide⟩)
      | (simp only [Bool.and_eq_true, decide_eq_true_eq] at h3
         obtain ⟨rfl, rfl⟩ := h3
         exact ⟨by decide, by decide⟩)
      | (simp only [Bool.and_eq_true, decide_eq_true_eq] at h4
         obtain ⟨rfl, rfl⟩ := h4
         exact ⟨by decide, by decide⟩)
      | cases h

theorem oneCharOp_some_not_digit {a : Char} {k : TokenKind}
    (h : oneCharOp a = some k) : isDigitChar a = false := by
  unfold oneCharOp at h
  split_ifs at h with h1 h2 h3 h4 h5 h6 h7 h8 <;>
    first
      | (subst h1; decide)
      | (subst h2; decide)
      | (subst h3; decide)
      | (subst h4; decide)
      | (subst h5; decide)
      | (subst h6; decide)
      | (subst h7; decide)
      | (subst h8; decide)
      | cases h

theorem advanceChars_digits (ds : List Char) (loc : Loc)
    (h : ∀ c ∈ ds, isDigitChar c = true) :
    advanceChars loc ds = ⟨loc.line, loc.col + ds.length⟩ := by
  induction ds generalizing loc with
  | nil => simp [advanceChars]
  | cons c ds ih =>
    have hc : isDigitChar c = true := h c (List.mem_cons_self c ds)
    have hne : c ≠ '\n' := isDigitChar_ne hc (by decide)
    have hne2 : ¬(('\n' : Char) = c) := fun he => hne he.symm
    have hstep : advanceLoc loc [c] = ⟨loc.line, loc.col + 1⟩ := by
      simp [advanceLoc, hne, hne2]
    have : advanceChars loc (c :: ds) = advanceChars (advanceLoc loc [c]) ds := rfl
    rw [this, hstep, ih _ (fun x hx => h x (List.mem_cons_of_mem c hx))]
    simp
    omega

theorem twoOpSplit_some {rest : List Char} {c c2 : Char} {k : TokenKind}
    {rest2 : List Char} (h : twoOpSplit rest c = some (k, c2, rest2)) :
    rest = c2 :: rest2 ∧ twoCharOp c c2 = some k := by
  match rest with
  | [] => cases h
  | d :: ds =>
    simp only [twoOpSplit] at h
    cases hop : twoCharOp c d with
    | none => rw [hop] at h; cases h
    | some k2 =>
      rw [hop] at h
      obtain ⟨rfl, rfl, rfl⟩ : k2 = k ∧ d = c2 ∧ ds = rest2 := by
        cases h
        exact ⟨rfl, rfl, rfl⟩
      exact ⟨rfl, hop⟩

theorem runsOk_cons_digit {c : Char} {rest : List Char} {acc : Nat}
    (hc : isDigitChar c = true) :
    runsOk (c :: rest) acc = runsOk rest (10 * acc + (c.toNat - 48)) := by
  simp [runsOk, hc]

theorem runsOk_cons_not_digit {c : Char} {rest : List Char} {acc : Nat}
    (hc : isDigitChar c = false) :
    runsOk (c :: rest) acc = (decide (acc < U64) && runsOk rest 0) := by
  simp [runsOk, hc]

theorem runsOk_cons_zero {c : Char} {rest : List Char}
    (hc : isDigitChar c = false) :
    runsOk (c :: rest) 0 = runsOk rest 0 := by
  rw [runsOk_cons_not_digit hc]
  have hz : decide (0 < U64) = true := by decide
  rw [hz, Bool.true_and]

theorem runsOk_split (cs : List Char) (acc : Nat) (h : runsOk cs acc = true) :
    List.foldl (fun a c => 10 * a + (c.toNat - 48)) acc (cs.takeWhile isDigitChar) < U64 ∧
    runsOk (cs.dropWhile isDigitChar) 0 = true := by
  induction cs generalizing acc with
  | nil =>
    simp only [runsOk, decide_eq_true_eq] at h
    refine ⟨by simpa using h, ?_⟩
    simp only [List.dropWhile_nil]
    decide
  | cons c rest ih =>
    by_cases hc : isDigitChar c = true
    · rw [List.takeWhile_cons_of_pos hc, List.dropWhile_cons_of_pos hc]
      rw [runsOk_cons_digit hc] at h
      simpa [List.foldl_cons] using ih _ h
    · have hc2 : isDigitChar c = false := by simpa using hc
      rw [List.takeWhile_cons_of_neg (by simp [hc2]), List.dropWhile_cons_of_neg (by simp [hc2])]
      rw [runsOk_cons_not_digit hc2, Bool.and_eq_true, decide_eq_true_eq] at h
      refine ⟨by simpa using h.1, ?_⟩
      rw [runsOk_cons_not_digit hc2, Bool.and_eq_true]
      exact ⟨by decide, h.2⟩

theorem tokenizeGo_no_panic (fuel : Nat) :
    ∀ cs loc, allAscii cs = true → runsOk cs 0 = true →
      tokenizeGo fuel cs loc ≠ .panic := by
  induction fuel with
  | zero =>
    intro cs loc _ _
    simp [tokenizeGo]
  | succ fuel ih =>
    intro cs loc hA h
    match cs with
    | [] => simp [tokenizeGo]
    | c :: rest =>
      rw [tokenizeGo]
      have hA2 : allAscii rest = true := (allAscii_cons hA).2
      have hhp : ¬(headPanics c rest = true) := by
        rw [headPanics_false hA]
        simp
      by_cases hsp : c = ' '
      · rw [if_pos hsp]
        have hcf : isDigitChar c = false := by rw [hsp]; decide
        rw [runsOk_cons_zero hcf] at h
        exact ih rest _ hA2 h
      · rw [if_neg hsp, if_neg hhp]
        cases hsplit : twoOpSplit rest c with
        | some v =>
          obtain ⟨k, c2, rest2⟩ := v
          obtain ⟨hrest, hop⟩ := twoOpSplit_some hsplit
          obtain ⟨hcf, hc2f⟩ := twoCharOp_some_not_digit hop
          subst hrest
          rw [runsOk_cons_zero hcf, runsOk_cons_zero hc2f] at h
          exact tokAfter_ne_panic (ih rest2 _ (allAscii_cons hA2).2 h)
        | none =>
          cases hone : oneCharOp c with
          | some k =>
            have hcf : isDigitChar c = false := oneCharOp_some_not_digit hone
            rw [runsOk_cons_zero hcf] at h
            exact tokAfter_ne_panic (ih rest _ hA2 h)
          | none =>
            by_cases hdc : isDigitChar c = true
            · rw [if_pos hdc]
              obtain ⟨hval, hrest⟩ := runsOk_split (c :: rest) 0 h
              have hval2 : digitsVal (List.takeWhile isDigitChar (c :: rest)) < U64 := hval
              rw [if_pos hval2]
              exact tokAfter_ne_panic
                (ih _ _ (allAscii_dropWhile isDigitChar (c :: rest) hA) hrest)
            · rw [if_neg hdc]
              simp

theorem tokenizeGo_adequate (fuel : Nat) :
    ∀ cs loc, cs.length < fuel → tokenizeGo fuel cs loc ≠ .fuelOut := by
  induction fuel with
  | zero =>
    intro cs loc h
    omega
  | succ fuel ih =>
    intro cs loc h
    match cs with
    | [] => simp [tokenizeGo]
    | c :: rest =>
      rw [tokenizeGo]
      simp only [List.length_cons] at h
      by_cases hsp : c = ' '
      · rw [if_pos hsp]
        exact ih rest _ (by omega)
      · rw [if_neg hsp]
        by_cases hhp : headPanics c rest = true
        · rw [if_pos hhp]
          simp
        · rw [if_neg hhp]
          cases hsplit : twoOpSplit rest c with
            | some v =>
              obtain ⟨k, c2, rest2⟩ := v
              obtain ⟨hrest, hop⟩ := twoOpSplit_some hsplit
              have hlen : rest2.length + 1 = rest.length := by rw [hrest]; simp
              exact tokAfter_ne_fuelOut (ih rest2 _ (by omega))
            | none =>
              cases hone : oneCharOp c with
              | some k =>
                exact tokAfter_ne_fuelOut (ih rest _ (by omega))
              | none =>
                by_cases hdc : isDigitChar c = true
                · rw [if_pos hdc]
                  have hdrop : List.dropWhile isDigitChar (c :: rest) = List.dropWhile isDigitChar rest :=
                    List.dropWhile_cons_of_pos hdc
                  have hlen : (List.dropWhile isDigitChar (c :: rest)).length ≤ rest.length := by
                    rw [hdrop]
                    exact length_dropWhile_le _ _
                  by_cases hv : digitsVal (List.takeWhile isDigitChar (c :: rest)) < U64
                  · rw [if_pos hv]
                    exact tokAfter_ne_fuelOut (ih _ _ (by omega))
                  · rw [if_neg hv]
                    cases hd : List.dropWhile isDigitChar (c :: rest) with
                    | nil => simp
                    | cons c2 tl => simp
                · rw [if_neg hdc]
                  simp

theorem tokenize_digits (d : List Char) (h1 : d ≠ [])
    (h2 : ∀ c ∈ d, isDigitChar c = true) (h3 : digitsVal d < U64) :
    tokenize d = .ok [⟨.num (digitsVal d), ⟨0, 0⟩⟩, ⟨.eof, ⟨0, d.length⟩⟩] := by
  match d, h1 with
  | c :: rest, _ =>
    have hc : isDigitChar c = true := h2 c (List.mem_cons_self c rest)
    have hsp : ¬(c = ' ') := isDigitChar_ne hc (by decide)
    have hsplit : twoOpSplit rest c = none := by
      cases rest with
      | nil => rfl
      | cons c2 r2 => simp [twoOpSplit, twoCharOp_digit hc]
    have hone : oneCharOp c = none := oneCharOp_digit hc
    have htake : List.takeWhile isDigitChar (c :: rest) = c :: rest :=
      List.takeWhile_eq_self_iff.mpr h2
    have hdrop : List.dropWhile isDigitChar (c :: rest) = [] :=
      List.dropWhile_eq_nil_iff.mpr h2
    have hA : allAscii (c :: rest) = true := by
      simp only [allAscii, List.all_eq_true, decide_eq_true_eq]
      intro x hx
      exact charBytes_of_digit (h2 x hx)
    have hhp : ¬(headPanics c rest = true) := by
      rw [headPanics_false hA]
      simp
    show tokenizeGo ((c :: rest).length + 1) (c :: rest) ⟨0, 0⟩ = _
    rw [tokenizeGo, if_neg hsp, if_neg hhp, hsplit, hone, if_pos hc, htake, hdrop, if_pos h3,
      advanceChars_digits _ _ h2]
    simp only [List.length_cons]
    rw [tokenizeGo]
    simp [tokAfter]

/-- Claim C10: tokenizing the empty string succeeds and returns exactly
one token, `Eof`, located at line 0, column 0. -/
theorem C10_empty_input : tokenize "".data = .ok [⟨.eof, ⟨0, 0⟩⟩] := rfl

/-- Claim C2 (code bug): after the two-character operator "<=" the
column advances by one, not two, so the token following it carries
column 1 although its first character sits at offset 2; the second
conjunct shows `advance` over a two-character span bumping the column by
exactly one. -/
theorem C2_column_after_two_char_op :
    tokenize "<=1".data =
      .ok [⟨.leq, ⟨0, 0⟩⟩, ⟨.num 1, ⟨0, 1⟩⟩, ⟨.eof, ⟨0, 2⟩⟩] ∧
    advanceLoc ⟨0, 0⟩ ['<', '='] = ⟨0, 1⟩ :=
  ⟨rfl, rfl⟩

/-- Claim C3, counterexample: on an overflowing digit run that reaches
the end of the input, the digit rule fails (`u64` parse overflow) after
consuming the reader, and the error path's `peek().unwrap()` panics, so
tokenize does not return a `TokenizeError` there. -/
theorem C3_counterexample : tokenize "18446744073709551616".data = .panic := rfl

/-- Claim C3, amended: when the input is ASCII-only and every maximal
digit run has a value below 2^64, tokenize never panics (failures are
always `TokenizeError`s carrying the offending character and location);
in particular tokenize("1 & 2") fails with the error located at the '&'
character (line 0, column 2).  Both provisos are necessary: an
overflowing digit run at end of input panics in `peek().unwrap()`, and a
multi-byte character at the cursor panics in `head`'s byte-index
`str::split_at` — e.g. tokenize("é") panics. -/
theorem C3_amended :
    (∀ cs, allAscii cs = true → runsOk cs 0 = true → tokenize cs ≠ .panic) ∧
    tokenize "1 & 2".data = .err '&' ⟨0, 2⟩ ∧
    tokenize "é".data = .panic :=
  ⟨fun cs hA h => tokenizeGo_no_panic _ cs _ hA h, rfl, rfl⟩

/-- Witness for C3: the amended theorem applied to the concrete input
"1 & 2". -/
theorem C3_witness : tokenize "1 & 2".data ≠ .panic :=
  C3_amended.1 "1 & 2".data (by decide) (by decide)

/-- Claim C4, counterexample: "99999999999999999999" is a non-empty
string of decimal digits, yet tokenize panics on it instead of
succeeding (its value exceeds the `u64` range, the digit rule's
`str::parse` fails, and the subsequent `peek().unwrap()` hits the
exhausted reader). -/
theorem C4_counterexample :
    ("99999999999999999999".data ≠ [] ∧
      ∀ c ∈ "99999999999999999999".data, isDigitChar c = true) ∧
    tokenize "99999999999999999999".data = .panic :=
  ⟨by decide, rfl⟩

/-- Claim C4, amended: for every non-empty string of decimal digits
whose value fits in an unsigned 64-bit integer, tokenize succeeds and
yields exactly `[Num(v), Eof]` with `v` the value of the digits. -/
theorem C4_amended (d : List Char) (h1 : d ≠ [])
    (h2 : ∀ c ∈ d, isDigitChar c = true) (h3 : digitsVal d < U64) :
    tokenize d = .ok [⟨.num (digitsVal d), ⟨0, 0⟩⟩, ⟨.eof, ⟨0, d.length⟩⟩] :=
  tokenize_digits d h1 h2 h3

/-- Witness for C4: the amended theorem applied to the digit string
"456". -/
theorem C4_witness :
    tokenize "456".data = .ok [⟨.num 456, ⟨0, 0⟩⟩, ⟨.eof, ⟨0, 3⟩⟩] :=
  C4_amended "456".data (by decide) (by decide) (by decide)

theorem consumeTok_some {k : TokenKind} {ts rest : List Token}
    (h : consumeTok k ts = some rest) :
    ∃ t, ts = t :: rest ∧ t.kind = k := by
  match ts with
  | [] => cases h
  | t :: r =>
    by_cases ht : t.kind = k
    · simp only [consumeTok, ht, if_pos] at h
      obtain rfl : r = rest := by
        simpa using h
      exact ⟨t, rfl, ht⟩
    · simp [consumeTok, ht] at h

theorem hasEof_cons_ne {t : Token} {ts : List Token} (h : ¬(t.kind = .eof)) :
    hasEof (t :: ts) = hasEof ts := by
  simp [hasEof, h]

theorem expectTok_rest_le {k : TokenKind} {ts rest : List Token}
    (h : expectTok k ts = .ok rest) : rest.length + 1 = ts.length := by
  match ts with
  | [] => cases h
  | t :: r =>
    by_cases ht : t.kind = k
    · simp only [expectTok, ht, if_pos] at h
      obtain rfl : r = rest := by
        cases h
        rfl
      simp
    · simp [expectTok, ht] at h

theorem expectNumber_rest_le {ts : List Token} {v : Nat} {rest : List Token}
    (h : expectNumber ts = .ok (v, rest)) : rest.length ≤ ts.length := by
  match ts with
  | [] => cases h
  | t :: r =>
    cases htk : t.kind
    case num m =>
      simp only [expectNumber, htk] at h
      obtain ⟨rfl, rfl⟩ := h
      simp
    all_goals simp [expectNumber, htk] at h

theorem parseGo_rest_le (fuel : Nat) :
    ∀ r ts n rest, parseGo fuel r ts = .ok (n, rest) → rest.length ≤ ts.length := by
  induction fuel with
  | zero =>
    intro r ts n rest h
    cases h
  | succ fuel ih =>
    intro r ts n rest h
    cases r with
    | expr => rw [parseGo] at h; exact ih _ _ _ _ h
    | equality => rw [parseGo] at h; exact ih _ _ _ _ h
    | relational => rw [parseGo] at h; exact ih _ _ _ _ h
    | add => rw [parseGo] at h; exact ih _ _ _ _ h
    | mul => rw [parseGo] at h; exact ih _ _ _ _ h
    | seqLevel sub ops =>
      rw [parseGo] at h
      cases hs : parseGo fuel sub ts with
      | error e => simp [hs] at h
      | ok v =>
        obtain ⟨n1, rest1⟩ := v
        simp only [hs] at h
        calc rest.length ≤ rest1.length := ih _ _ _ _ h
          _ ≤ ts.length := ih _ _ _ _ hs
    | binLoop sub ops acc =>
      cases ts with
      | nil =>
        rw [parseGo] at h
        obtain ⟨rfl, rfl⟩ : acc = n ∧ ([] : List Token) = rest := by
          cases h
          exact ⟨rfl, rfl⟩
        exact Nat.le_refl _
      | cons t rest1 =>
        rw [parseGo] at h
        cases hfind : List.find? (fun p => decide (p.1 = t.kind)) ops with
        | none =>
          simp only [hfind] at h
          obtain ⟨rfl, rfl⟩ : acc = n ∧ t :: rest1 = rest := by
            cases h
            exact ⟨rfl, rfl⟩
          exact Nat.le_refl _
        | some pr =>
          obtain ⟨tk, nk⟩ := pr
          simp only [hfind] at h
          cases hs : parseGo fuel sub rest1 with
          | error e => simp [hs] at h
          | ok v =>
            obtain ⟨m, rest2⟩ := v
            simp only [hs] at h
            have h1 := ih _ _ _ _ h
            have h2 := ih _ _ _ _ hs
            simp only [List.length_cons]
            omega
    | unary =>
      rw [parseGo] at h
      cases hcp : consumeTok .plus ts with
      | some rest1 =>
        simp only [hcp] at h
        obtain ⟨t, rfl, ht⟩ := consumeTok_some hcp
        have := ih _ _ _ _ h
        simp only [List.length_cons]
        omega
      | none =>
        simp only [hcp] at h
        cases hcm : consumeTok .minus ts with
        | some rest1 =>
          simp only [hcm] at h
          obtain ⟨t, rfl, ht⟩ := consumeTok_some hcm
          cases hs : parseGo fuel .primary rest1 with
          | error e => simp [hs] at h
          | ok v =>
            obtain ⟨m, rest2⟩ := v
            simp only [hs] at h
            obtain ⟨rfl, rfl⟩ : Node.bin .sub (Node.newNum 0) m = n ∧ rest2 = rest := by
              cases h
              exact ⟨rfl, rfl⟩
            have := ih _ _ _ _ hs
            simp only [List.length_cons]
            omega
        | none =>
          simp only [hcm] at h
          exact ih _ _ _ _ h
    | primary =>
      rw [parseGo] at h
      cases hcp : consumeTok .lparen ts with
      | some rest1 =>
        simp only [hcp] at h
        obtain ⟨t, rfl, ht⟩ := consumeTok_some hcp
        cases hs : parseGo fuel .expr rest1 with
        | error e => simp [hs] at h
        | ok v =>
          obtain ⟨n1, rest2⟩ := v
          simp only [hs] at h
          cases hx : expectTok .rparen rest2 with
          | error e => simp [hx] at h
          | ok rest3 =>
            simp only [hx] at h
            obtain ⟨rfl, rfl⟩ : n1 = n ∧ rest3 = rest := by
              cases h
              exact ⟨rfl, rfl⟩
            have h1 := ih _ _ _ _ hs
            have h2 := expectTok_rest_le hx
            simp only [List.length_cons] at h1 ⊢
            omega
      | none =>
        simp only [hcp] at h
        cases hx : expectNumber ts with
        | error e => simp [hx] at h
        | ok v =>
          obtain ⟨v0, rest1⟩ := v
          simp only [hx] at h
          obtain ⟨rfl, rfl⟩ : Node.newNum v0 = n ∧ rest1 = rest := by
            cases h
            exact ⟨rfl, rfl⟩
          exact expectNumber_rest_le hx

theorem expectTok_some {k : TokenKind} {ts rest : List Token}
    (h : expectTok k ts = .ok rest) :
    ∃ t, ts = t :: rest ∧ t.kind = k := by
  match ts with
  | [] => cases h
  | t :: r =>
    by_cases ht : t.kind = k
    · simp only [expectTok, ht, if_pos] at h
      obtain rfl : r = rest := by
        cases h
        rfl
      exact ⟨t, rfl, ht⟩
    · simp [expectTok, ht] at h

theorem expectNumber_some {ts : List Token} {v : Nat} {rest : List Token}
    (h : expectNumber ts = .ok (v, rest)) :
    ∃ t, ts = t :: rest ∧ t.kind = .num v := by
  match ts with
  | [] => cases h
  | t :: r =>
    cases htk : t.kind
    case num m =>
      simp only [expectNumber, htk] at h
      obtain ⟨rfl, rfl⟩ := h
      exact ⟨t, rfl, htk⟩
    all_goals simp [expectNumber, htk] at h

theorem wfRule_parts {sub : Rule} {ops : List (TokenKind × NodeKind)}
    (h : (wfRule sub && decide (ruleW sub ≤ 20) &&
      ops.all fun p => !(p.1 == TokenKind.eof)) = true) :
    wfRule sub = true ∧ ruleW sub ≤ 20 ∧
      (ops.all fun p => !(p.1 == TokenKind.eof)) = true := by
  simp only [Bool.and_eq_true, decide_eq_true_eq] at h
  exact ⟨h.1.1, h.1.2, h.2⟩

theorem parseGo_eof (fuel : Nat) :
    ∀ r ts n rest, wfRule r = true → parseGo fuel r ts = .ok (n, rest) →
      hasEof ts = true → hasEof rest = true := by
  induction fuel with
  | zero =>
    intro r ts n rest _ h _
    cases h
  | succ fuel ih =>
    intro r ts n rest hwf h heof
    cases r with
    | expr =>
      rw [parseGo] at h
      exact ih _ _ _ _ (by decide) h heof
    | equality =>
      rw [parseGo] at h
      exact ih _ _ _ _ (by decide) h heof
    | relational =>
      rw [parseGo] at h
      exact ih _ _ _ _ (by decide) h heof
    | add =>
      rw [parseGo] at h
      exact ih _ _ _ _ (by decide) h heof
    | mul =>
      rw [parseGo] at h
      exact ih _ _ _ _ (by decide) h heof
    | seqLevel sub ops =>
      obtain ⟨hw1, hw2, hw3⟩ := wfRule_parts hwf
      rw [parseGo] at h
      cases hs : parseGo fuel sub ts with
      | error e => simp [hs] at h
      | ok v =>
        obtain ⟨n1, rest1⟩ := v
        simp only [hs] at h
        have h1 := ih _ _ _ _ hw1 hs heof
        have hwb : wfRule (.binLoop sub ops n1) = true := by
          simp only [wfRule, hw1, hw3, Bool.true_and, Bool.and_eq_true,
            decide_eq_true_eq]
          exact ⟨hw2, trivial⟩
        exact ih _ _ _ _ hwb h h1
    | binLoop sub ops acc =>
      obtain ⟨hw1, hw2, hw3⟩ := wfRule_parts hwf
      cases ts with
      | nil =>
        rw [parseGo] at h
        obtain ⟨rfl, rfl⟩ : acc = n ∧ ([] : List Token) = rest := by
          cases h
          exact ⟨rfl, rfl⟩
        exact heof
      | cons t rest1 =>
        rw [parseGo] at h
        cases hfind : List.find? (fun p => decide (p.1 = t.kind)) ops with
        | none =>
          simp only [hfind] at h
          obtain ⟨rfl, rfl⟩ : acc = n ∧ t :: rest1 = rest := by
            cases h
            exact ⟨rfl, rfl⟩
          exact heof
        | some pr =>
          obtain ⟨tk, nk⟩ := pr
          simp only [hfind] at h
          have hmem := List.mem_of_find?_eq_some hfind
          have htk : tk = t.kind := by simpa using List.find?_some hfind
          have hne : ¬(t.kind = .eof) := by
            have hall := List.all_eq_true.mp hw3 _ hmem
            have h2 : ¬(tk = .eof) := by simpa using hall
            exact fun hc => h2 (htk.trans hc)
          have heof1 : hasEof rest1 = true := by
            rwa [hasEof_cons_ne hne] at heof
          cases hs : parseGo fuel sub rest1 with
          | error e => simp [hs] at h
          | ok v =>
            obtain ⟨m, rest2⟩ := v
            simp only [hs] at h
            have h2 := ih _ _ _ _ hw1 hs heof1
            have hwb : wfRule (.binLoop sub ops (Node.bin nk acc m)) = true := by
              simp only [wfRule, hw1, hw3, Bool.true_and, Bool.and_eq_true,
                decide_eq_true_eq]
              exact ⟨hw2, trivial⟩
            exact ih _ _ _ _ hwb h h2
    | unary =>
      rw [parseGo] at h
      cases hcp : consumeTok .plus ts with
      | some rest1 =>
        simp only [hcp] at h
        obtain ⟨t, rfl, ht⟩ := consumeTok_some hcp
        have hne : ¬(t.kind = .eof) := by simp [ht]
        exact ih _ _ _ _ (by decide) h (by rwa [hasEof_cons_ne hne] at heof)
      | none =>
        simp only [hcp] at h
        cases hcm : consumeTok .minus ts with
        | some rest1 =>
          simp only [hcm] at h
          obtain ⟨t, rfl, ht⟩ := consumeTok_some hcm
          have hne : ¬(t.kind = .eof) := by simp [ht]
          have heof1 : hasEof rest1 = true := by
            rwa [hasEof_cons_ne hne] at heof
          cases hs : parseGo fuel .primary rest1 with
          | error e => simp [hs] at h
          | ok v =>
            obtain ⟨m, rest2⟩ := v
            simp only [hs] at h
            obtain ⟨rfl, rfl⟩ : Node.bin .sub (Node.newNum 0) m = n ∧ rest2 = rest := by
              cases h
              exact ⟨rfl, rfl⟩
            exact ih _ _ _ _ (by decide) hs heof1
        | none =>
          simp only [hcm] at h
          exact ih _ _ _ _ (by decide) h heof
    | primary =>
      rw [parseGo] at h
      cases hcp : consumeTok .lparen ts with
      | some rest1 =>
        simp only [hcp] at h
        obtain ⟨t, rfl, ht⟩ := consumeTok_some hcp
        have hne : ¬(t.kind = .eof) := by simp [ht]
        have heof1 : hasEof rest1 = true := by
          rwa [hasEof_cons_ne hne] at heof
        cases hs : parseGo fuel .expr rest1 with
        | error e => simp [hs] at h
        | ok v =>
          obtain ⟨n1, rest2⟩ := v
          simp only [hs] at h
          have h2 := ih _ _ _ _ (by decide) hs heof1
          cases hx : expectTok .rparen rest2 with
          | error e => simp [hx] at h
          | ok rest3 =>
            simp only [hx] at h
            obtain ⟨rfl, rfl⟩ : n1 = n ∧ rest3 = rest := by
              cases h
              exact ⟨rfl, rfl⟩
            obtain ⟨t2, heq2, ht2⟩ := expectTok_some hx
            have hne2 : ¬(t2.kind = .eof) := by simp [ht2]
            rw [heq2, hasEof_cons_ne hne2] at h2
            exact h2
      | none =>
        simp only [hcp] at h
        cases hx : expectNumber ts with
        | error e => simp [hx] at h
        | ok v =>
          obtain ⟨v0, rest1⟩ := v
          simp only [hx] at h
          obtain ⟨rfl, rfl⟩ : Node.newNum v0 = n ∧ rest1 = rest := by
            cases h
            exact ⟨rfl, rfl⟩
          obtain ⟨t2, heq2, ht2⟩ := expectNumber_some hx
          have hne2 : ¬(t2.kind = .eof) := by simp [ht2]
          rw [heq2, hasEof_cons_ne hne2] at heof
          exact heof

theorem expectTok_error {k : TokenKind} {ts : List Token} {e : PErr}
    (h : expectTok k ts = .error e) : e ≠ .outOfFuel := by
  match ts with
  | [] =>
    simp only [expectTok] at h
    cases h
    simp
  | t :: r =>
    by_cases ht : t.kind = k
    · simp [expectTok, ht] at h
    · simp only [expectTok, if_neg ht] at h
      cases h
      simp

theorem expectNumber_error {ts : List Token} {e : PErr}
    (h : expectNumber ts = .error e) : e ≠ .outOfFuel := by
  match ts with
  | [] =>
    simp only [expectNumber] at h
    cases h
    simp
  | t :: r =>
    cases htk : t.kind
    case num m => simp [expectNumber, htk] at h
    all_goals
      simp only [expectNumber, htk] at h
      cases h
      simp

theorem ruleW_pos (r : Rule) : 1 ≤ ruleW r := by
  cases r <;> simp [ruleW]

theorem parseGo_adequate (fuel : Nat) :
    ∀ r ts, wfRule r = true → 20 * ts.length + ruleW r ≤ fuel →
      parseGo fuel r ts ≠ .error .outOfFuel := by
  induction fuel with
  | zero =>
    intro r ts _ hb
    have := ruleW_pos r
    omega
  | succ fuel ih =>
    intro r ts hwf hb
    cases r with
    | expr =>
      rw [parseGo]
      simp only [ruleW] at hb
      exact ih _ _ (by decide) (by simp only [ruleW]; omega)
    | equality =>
      rw [parseGo]
      simp only [ruleW] at hb
      exact ih _ _ (by decide) (by simp only [ruleW]; omega)
    | relational =>
      rw [parseGo]
      simp only [ruleW] at hb
      exact ih _ _ (by decide) (by simp only [ruleW]; omega)
    | add =>
      rw [parseGo]
      simp only [ruleW] at hb
      exact ih _ _ (by decide) (by simp only [ruleW]; omega)
    | mul =>
      rw [parseGo]
      simp only [ruleW] at hb
      exact ih _ _ (by decide) (by simp only [ruleW]; omega)
    | seqLevel sub ops =>
      obtain ⟨hw1, hw2, hw3⟩ := wfRule_parts hwf
      have hp := ruleW_pos sub
      rw [parseGo]
      simp only [ruleW] at hb
      cases hs : parseGo fuel sub ts with
      | error e =>
        have hne := ih sub ts hw1 (by omega)
        rw [hs] at hne
        simp only [hs]
        exact hne
      | ok v =>
        obtain ⟨n1, rest1⟩ := v
        simp only [hs]
        have hr := parseGo_rest_le fuel sub ts n1 rest1 hs
        have hwb : wfRule (.binLoop sub ops n1) = true := by
          simp only [wfRule, hw1, hw3, Bool.true_and, Bool.and_eq_true,
            decide_eq_true_eq]
          exact ⟨hw2, trivial⟩
        exact ih _ _ hwb (by simp only [ruleW]; omega)
    | binLoop sub ops acc =>
      obtain ⟨hw1, hw2, hw3⟩ := wfRule_parts hwf
      simp only [ruleW] at hb
      cases ts with
      | nil =>
        rw [parseGo]
        simp
      | cons t rest1 =>
        rw [parseGo]
        simp only [List.length_cons] at hb
        cases hfind : List.find? (fun p => decide (p.1 = t.kind)) ops with
        | none => simp [hfind]
        | some pr =>
          obtain ⟨tk, nk⟩ := pr
          simp only [hfind]
          cases hs : parseGo fuel sub rest1 with
          | error e =>
            have hne := ih sub rest1 hw1 (by omega)
            rw [hs] at hne
            simp only [hs]
            exact hne
          | ok v =>
            obtain ⟨m, rest2⟩ := v
            simp only [hs]
            have hr := parseGo_rest_le fuel sub rest1 m rest2 hs
            have hwb : wfRule (.binLoop sub ops (Node.bin nk acc m)) = true := by
              simp only [wfRule, hw1, hw3, Bool.true_and, Bool.and_eq_true,
                decide_eq_true_eq]
              exact ⟨hw2, trivial⟩
            exact ih _ _ hwb (by simp only [ruleW]; omega)
    | unary =>
      simp only [ruleW] at hb
      rw [parseGo]
      cases hcp : consumeTok .plus ts with
      | some rest1 =>
        simp only [hcp]
        obtain ⟨t, heq, ht⟩ := consumeTok_some hcp
        have hlen : rest1.length + 1 = ts.length := by rw [heq]; simp
        exact ih _ _ (by decide) (by simp only [ruleW]; omega)
      | none =>
        simp only [hcp]
        cases hcm : consumeTok .minus ts with
        | some rest1 =>
          simp only [hcm]
          obtain ⟨t, heq, ht⟩ := consumeTok_some hcm
          have hlen : rest1.length + 1 = ts.length := by rw [heq]; simp
          cases hs : parseGo fuel .primary rest1 with
          | error e =>
            have hne := ih .primary rest1 (by decide) (by simp only [ruleW]; omega)
            rw [hs] at hne
            simp only [hs]
            exact hne
          | ok v =>
            obtain ⟨m, rest2⟩ := v
            simp [hs]
        | none =>
          simp only [hcm]
          exact ih _ _ (by decide) (by simp only [ruleW]; omega)
    | primary =>
      simp only [ruleW] at hb
      rw [parseGo]
      cases hcp : consumeTok .lparen ts with
      | some rest1 =>
        simp only [hcp]
        obtain ⟨t, heq, ht⟩ := consumeTok_some hcp
        have hlen : rest1.length + 1 = ts.length := by rw [heq]; simp
        cases hs : parseGo fuel .expr rest1 with
        | error e =>
          have hne := ih .expr rest1 (by decide) (by simp only [ruleW]; omega)
          rw [hs] at hne
          simp only [hs]
          exact hne
        | ok v =>
          obtain ⟨n1, rest2⟩ := v
          simp only [hs]
          cases hx : expectTok .rparen rest2 with
          | error e =>
            have := expectTok_error hx
            simp [hx, this]
          | ok rest3 => simp [hx]
      | none =>
        simp only [hcp]
        cases hx : expectNumber ts with
        | error e =>
          have := expectNumber_error hx
          simp [hx, this]
        | ok v =>
          obtain ⟨v0, rest1⟩ := v
          simp [hx]

/-- Claim C5: the parser respects left-associativity, precedence and
parenthesization: "1-2-3" parses as Sub(Sub(1,2),3), "1+2*3" puts the
Mul node as the right child of Add, and "(1+2)*3" puts the Add node as
the left child of Mul. -/
theorem C5_assoc_prec_paren :
    astOf "1-2-3" =
      some (Node.bin .sub (Node.bin .sub (Node.newNum 1) (Node.newNum 2)) (Node.newNum 3)) ∧
    astOf "1+2*3" =
      some (Node.bin .add (Node.newNum 1) (Node.bin .mul (Node.newNum 2) (Node.newNum 3))) ∧
    astOf "(1+2)*3" =
      some (Node.bin .mul (Node.bin .add (Node.newNum 1) (Node.newNum 2)) (Node.newNum 3)) :=
  ⟨rfl, rfl, rfl⟩

/-- Claim C6: unary minus desugars to subtraction from zero: the AST of
"-5" is Sub(Num(0), Num(5)). -/
theorem C6_unary_minus_desugars :
    astOf "-5" = some (Node.bin .sub (Node.newNum 0) (Node.newNum 5)) := rfl

/-- Claim C7: parsing the tokens of "1+" fails with a ParseError — the
exact error produced by `expect_number` when it meets `Eof` at the
missing right operand, propagated unchanged to the top level — rather
than panicking or returning a tree. -/
theorem C7_missing_operand_error :
    parseOutcomeOf "1+" = some (.err (.expectedNum .eof)) := rfl

/-- Claim C8: the three passes terminate.  In this embedding `tokenize`,
the parser and `gen_main` are total functions by construction; the fuel
counters of the tokenizer and parser are artifacts of the encoding, and
this theorem shows they never run out: the tokenizer on any input given
more fuel than characters, `tokenize` itself (which supplies length + 1),
and `parse_into_ast` (which supplies `parseFuel`) for every token
sequence. -/
theorem C8_termination :
    (∀ fuel cs loc, cs.length < fuel → tokenizeGo fuel cs loc ≠ .fuelOut) ∧
    (∀ cs, tokenize cs ≠ .fuelOut) ∧
    (∀ ts, parseIntoAst ts ≠ .err .outOfFuel) := by
  refine ⟨fun fuel cs loc h => tokenizeGo_adequate fuel cs loc h,
    fun cs => tokenizeGo_adequate (cs.length + 1) cs ⟨0, 0⟩ (by omega),
    fun ts => ?_⟩
  cases hp : parseGo (parseFuel ts) .expr ts with
  | error e =>
    have hne := parseGo_adequate (parseFuel ts) .expr ts (by decide)
      (by simp only [parseFuel, ruleW]; omega)
    rw [hp] at hne
    simp only [parseIntoAst, hp]
    intro hcon
    cases hcon
    exact hne rfl
  | ok v =>
    obtain ⟨n, rest⟩ := v
    simp only [parseIntoAst, hp]
    cases rest with
    | nil => simp
    | cons t r =>
      by_cases ht : t.kind = .eof
      · simp [ht]
      · simp [ht]

/-- Witness for C8: the adequacy part applied at a concrete input. -/
theorem C8_witness : tokenizeGo 3 "1".data ⟨0, 0⟩ ≠ .fuelOut :=
  C8_termination.1 3 "1".data ⟨0, 0⟩ (by decide)

/-- Claim C9: if the token stream contains an `Eof` token, the parser
never consumes it, so after `expr` succeeds there is still a token to
peek at and the `unwrap` in `parse_into_ast` cannot panic; on a stream
without `Eof` — such as the single token `Num(1)` — `parse_into_ast`
panics instead of returning an error. -/
theorem C9_eof_guards_unwrap :
    (∀ ts, hasEof ts = true → parseIntoAst ts ≠ .panic) ∧
    parseIntoAst [⟨.num 1, ⟨0, 0⟩⟩] = .panic := by
  refine ⟨fun ts heof => ?_, rfl⟩
  cases hp : parseGo (parseFuel ts) .expr ts with
  | error e => simp [parseIntoAst, hp]
  | ok v =>
    obtain ⟨n, rest⟩ := v
    have hrest := parseGo_eof (parseFuel ts) .expr ts n rest (by decide) hp heof
    simp only [parseIntoAst, hp]
    cases rest with
    | nil => simp [hasEof] at hrest
    | cons t r =>
      by_cases ht : t.kind = .eof
      · simp [ht]
      · simp [ht]

/-- Witness for C9: the guarded part applied to a stream that contains
`Eof`. -/
theorem C9_witness : parseIntoAst [⟨.num 1, ⟨0, 0⟩⟩, ⟨.eof, ⟨0, 1⟩⟩] ≠ .panic :=
  C9_eof_guards_unwrap.1 [⟨.num 1, ⟨0, 0⟩⟩, ⟨.eof, ⟨0, 1⟩⟩] (by decide)

theorem runM_append (is js : List Instr) :
    ∀ s, runM (is ++ js) s = (runM is s).bind fun s2 => runM js s2 := by
  induction is with
  | nil =>
    intro s
    simp [runM]
  | cons i is ih =>
    intro s
    cases i with
    | push n =>
      simp only [List.cons_append, runM]
      exact ih _
    | add =>
      simp only [List.cons_append, runM]
      cases hp : pop2 s with
      | none => simp
      | some v =>
        obtain ⟨b, a, s2⟩ := v
        simp only []
        exact ih _
    | sub =>
      simp only [List.cons_append, runM]
      cases hp : pop2 s with
      | none => simp
      | some v =>
        obtain ⟨b, a, s2⟩ := v
        simp only []
        exact ih _
    | mul =>
      simp only [List.cons_append, runM]
      cases hp : pop2 s with
      | none => simp
      | some v =>
        obtain ⟨b, a, s2⟩ := v
        simp only []
        exact ih _
    | div =>
      simp only [List.cons_append, runM]
      cases hp : pop2 s with
      | none => simp
      | some v =>
        obtain ⟨b, a, s2⟩ := v
        simp only []
        by_cases h0 : toSInt b = 0
        · simp [h0]
        · by_cases hq : (toSInt a).tdiv (toSInt b) < -halfM ∨ halfM ≤ (toSInt a).tdiv (toSInt b)
          · simp [h0, hq]
          · simp only [if_neg h0, if_neg hq]
            exact ih _

theorem halfM_pos : (0 : Int) < halfM := by norm_num [halfM]

theorem wordM_two_halfM : wordM = 2 * halfM := by norm_num [wordM, halfM]

theorem toWord_eq_self {v : Int} (h0 : 0 ≤ v) (h1 : v < wordM) : toWord v = v :=
  Int.emod_eq_of_lt h0 h1

theorem toWord_neg {v : Int} (h0 : -wordM ≤ v) (h1 : v < 0) : toWord v = v + wordM := by
  have hw : (0 : Int) < wordM := by norm_num [wordM]
  have h2 : (v + wordM * 1) % wordM = v % wordM := Int.add_mul_emod_self_left v wordM 1
  have h3 : (v + wordM) % wordM = v + wordM :=
    Int.emod_eq_of_lt (by omega) (by omega)
  rw [toWord, ← h2]
  rw [mul_one] at h2 ⊢
  rw [h3]

theorem toSInt_toWord {v : Int} (h0 : -halfM ≤ v) (h1 : v < halfM) :
    toSInt (toWord v) = v := by
  have hw := wordM_two_halfM
  have hp := halfM_pos
  by_cases hv : 0 ≤ v
  · rw [toWord_eq_self hv (by omega), toSInt, if_pos h1]
  · push_neg at hv
    rw [toWord_neg (by omega) hv, toSInt, if_neg (by omega)]
    omega

theorem add_toWord (a b : Int) : (toWord a + toWord b) % wordM = toWord (a + b) :=
  (Int.add_emod a b wordM).symm

theorem sub_toWord (a b : Int) : (toWord a - toWord b) % wordM = toWord (a - b) :=
  (Int.sub_emod a b wordM).symm

theorem mul_toWord (a b : Int) : (toWord a * toWord b) % wordM = toWord (a * b) :=
  (Int.mul_emod a b wordM).symm

theorem inRangeB_bounds {v : Int} (h : inRangeB v = true) :
    -halfM ≤ v ∧ v < halfM := by
  simpa [inRangeB, Bool.and_eq_true, decide_eq_true_eq] using h

theorem allInRange_unfold (k : NodeKind) (l r : Option Node) :
    allInRange (.mk k l r) =
      (okRange (evalSpec (.mk k l r))
        && (match l with | some a => allInRange a | none => true)
        && (match r with | some b => allInRange b | none => true)) := by
  rw [allInRange.eq_def]

theorem allInRange_parts {k : NodeKind} {l r : Option Node} {v : Int}
    (h : allInRange (.mk k l r) = true) (he : evalSpec (.mk k l r) = some v) :
    inRangeB v = true ∧ (∀ a, l = some a → allInRange a = true) ∧
      (∀ b, r = some b → allInRange b = true) := by
  rw [allInRange_unfold, he] at h
  simp only [okRange, Bool.and_eq_true] at h
  refine ⟨h.1.1, fun a ha => ?_, fun b hb => ?_⟩
  · have h2 := h.1.2
    rw [ha] at h2
    simpa using h2
  · have h2 := h.2
    rw [hb] at h2
    simpa using h2

theorem evalSpec_unfold (k : NodeKind) (l r : Option Node) :
    evalSpec (.mk k l r) =
      (match k with
       | .num n => some (n : Int)
       | _ =>
        match l, r with
        | some a, some b =>
          match evalSpec a, evalSpec b with
          | some x, some y =>
            match k with
            | .add => some (x + y)
            | .sub => some (x - y)
            | .mul => some (x * y)
            | .div => if y = 0 then none else some (x.tdiv y)
            | .eq => some (if x = y then 1 else 0)
            | .neq => some (if x = y then 0 else 1)
            | .lt => some (if x < y then 1 else 0)
            | .leq => some (if x ≤ y then 1 else 0)
            | .gt => some (if y < x then 1 else 0)
            | .geq => some (if y ≤ x then 1 else 0)
            | .num _ => none
          | _, _ => none
        | _, _ => none) := by
  rw [evalSpec.eq_def]

theorem arithOnly_unfold (k : NodeKind) (l r : Option Node) :
    arithOnly (.mk k l r) =
      (match k with
       | .num _ => true
       | _ =>
        (match k with | .add | .sub | .mul | .div => true | _ => false)
        && (match l with | some a => arithOnly a | none => false)
        && (match r with | some b => arithOnly b | none => false)) := by
  rw [arithOnly.eq_def]

theorem genMain_unfold (k : NodeKind) (l r : Option Node) :
    genMain (.mk k l r) =
      (match k with
       | .num n => .ok [.push n]
       | _ =>
        match l, r with
        | none, _ => .error .nullLhs
        | some ln, none =>
          match genMain ln with
          | .error e => .error e
          | .ok _ => .error .nullRhs
        | some ln, some rn =>
          match genMain ln with
          | .error e => .error e
          | .ok il =>
            match genMain rn with
            | .error e => .error e
            | .ok ir =>
              match opInstr k with
              | some i => .ok (il ++ ir ++ [i])
              | none => .error (.notBinary k)) := by
  rw [genMain.eq_def]

theorem allInRange_root {n : Node} {w : Int} (hn : allInRange n = true)
    (hw : evalSpec n = some w) : inRangeB w = true := by
  cases n with
  | mk k l r => exact (allInRange_parts hn hw).1

theorem genMain_correct :
    ∀ e v, arithOnly e = true → allInRange e = true → evalSpec e = some v →
      ∃ is, genMain e = .ok is ∧
        ∀ js s, runM (is ++ js) s = runM js (toWord v :: s) := by
  intro e
  refine @Node.recAll
    (fun e => ∀ v, arithOnly e = true → allInRange e = true → evalSpec e = some v →
      ∃ is, genMain e = .ok is ∧
        ∀ js s, runM (is ++ js) s = runM js (toWord v :: s))
    (fun k l r ihl ihr => ?_) e
  intro v harith hrange heval
  cases k with
  | num n =>
    have heval2 : some ((n : Nat) : Int) = some v := by
      rw [evalSpec_unfold] at heval
      exact heval
    obtain rfl : ((n : Nat) : Int) = v := Option.some.inj heval2
    refine ⟨[.push n], by rw [genMain_unfold], fun js s => ?_⟩
    rfl
  | add =>
    cases l with
    | none =>
      rw [arithOnly_unfold] at harith
      simp at harith
    | some ln =>
      cases r with
      | none =>
        rw [arithOnly_unfold] at harith
        simp at harith
      | some rn =>
        rw [arithOnly_unfold] at harith
        simp at harith
        have heval2 : (match evalSpec ln, evalSpec rn with
            | some x, some y => some (x + y)
            | _, _ => none) = some v := heval
        cases ha : evalSpec ln with
        | none =>
          cases hb : evalSpec rn with
          | none => rw [ha, hb] at heval2; simp at heval2
          | some y => rw [ha, hb] at heval2; simp at heval2
        | some x =>
          cases hb : evalSpec rn with
          | none => rw [ha, hb] at heval2; simp at heval2
          | some y =>
            rw [ha, hb] at heval2
            simp at heval2
            subst heval2
            have hev2 : evalSpec (.mk .add (some ln) (some rn)) = some (x + y) := by
              have h0 : evalSpec (.mk .add (some ln) (some rn)) =
                  (match evalSpec ln, evalSpec rn with
                   | some a, some b => some (a + b)
                   | _, _ => none) := evalSpec_unfold .add (some ln) (some rn)
              rw [ha, hb] at h0
              exact h0
            obtain ⟨hr0, hrl, hrr⟩ := allInRange_parts hrange hev2
            obtain ⟨isl, hgl, hrunl⟩ := ihl ln rfl x harith.1 (hrl ln rfl) ha
            obtain ⟨isr, hgr, hrunr⟩ := ihr rn rfl y harith.2 (hrr rn rfl) hb
            refine ⟨isl ++ isr ++ [Instr.add], ?_, ?_⟩
            · have h0 : genMain (.mk .add (some ln) (some rn)) =
                  (match genMain ln with
                   | .error e => .error e
                   | .ok il =>
                     match genMain rn with
                     | .error e => .error e
                     | .ok ir => .ok (il ++ ir ++ [Instr.add])) :=
                genMain_unfold .add (some ln) (some rn)
              rw [hgl, hgr] at h0
              exact h0
            · intro js s
              rw [List.append_assoc, List.append_assoc, hrunl, hrunr]
              show runM js ((toWord x + toWord y) % wordM :: s) =
                runM js (toWord (x + y) :: s)
              rw [add_toWord]
  | sub =>
    cases l with
    | none =>
      rw [arithOnly_unfold] at harith
      simp at harith
    | some ln =>
      cases r with
      | none =>
        rw [arithOnly_unfold] at harith
        simp at harith
      | some rn =>
        rw [arithOnly_unfold] at harith
        simp at harith
        have heval2 : (match evalSpec ln, evalSpec rn with
            | some x, some y => some (x - y)
            | _, _ => none) = some v := heval
        cases ha : evalSpec ln with
        | none =>
          cases hb : evalSpec rn with
          | none => rw [ha, hb] at heval2; simp at heval2
          | some y => rw [ha, hb] at heval2; simp at heval2
        | some x =>
          cases hb : evalSpec rn with
          | none => rw [ha, hb] at heval2; simp at heval2
          | some y =>
            rw [ha, hb] at heval2
            simp at heval2
            subst heval2
            have hev2 : evalSpec (.mk .sub (some ln) (some rn)) = some (x - y) := by
              have h0 : evalSpec (.mk .sub (some ln) (some rn)) =
                  (match evalSpec ln, evalSpec rn with
                   | some a, some b => some (a - b)
                   | _, _ => none) := evalSpec_unfold .sub (some ln) (some rn)
              rw [ha, hb] at h0
              exact h0
            obtain ⟨hr0, hrl, hrr⟩ := allInRange_parts hrange hev2
            obtain ⟨isl, hgl, hrunl⟩ := ihl ln rfl x harith.1 (hrl ln rfl) ha
            obtain ⟨isr, hgr, hrunr⟩ := ihr rn rfl y harith.2 (hrr rn rfl) hb
            refine ⟨isl ++ isr ++ [Instr.sub], ?_, ?_⟩
            · have h0 : genMain (.mk .sub (some ln) (some rn)) =
                  (match genMain ln with
                   | .error e => .error e
                   | .ok il =>
                     match genMain rn with
                     | .error e => .error e
                     | .ok ir => .ok (il ++ ir ++ [Instr.sub])) :=
                genMain_unfold .sub (some ln) (some rn)
              rw [hgl, hgr] at h0
              exact h0
            · intro js s
              rw [List.append_assoc, List.append_assoc, hrunl, hrunr]
              show runM js ((toWord x - toWord y) % wordM :: s) =
                runM js (toWord (x - y) :: s)
              rw [sub_toWord]
  | mul =>
    cases l with
    | none =>
      rw [arithOnly_unfold] at harith
      simp at harith
    | some ln =>
      cases r with
      | none =>
        rw [arithOnly_unfold] at harith
        simp at harith
      | some rn =>
        rw [arithOnly_unfold] at harith
        simp at harith
        have heval2 : (match evalSpec ln, evalSpec rn with
            | some x, some y => some (x * y)
            | _, _ => none) = some v := heval
        cases ha : evalSpec ln with
        | none =>
          cases hb : evalSpec rn with
          | none => rw [ha, hb] at heval2; simp at heval2
          | some y => rw [ha, hb] at heval2; simp at heval2
        | some x =>
          cases hb : evalSpec rn with
          | none => rw [ha, hb] at heval2; simp at heval2
          | some y =>
            rw [ha, hb] at heval2
            simp at heval2
            subst heval2
            have hev2 : evalSpec (.mk .mul (some ln) (some rn)) = some (x * y) := by
              have h0 : evalSpec (.mk .mul (some ln) (some rn)) =
                  (match evalSpec ln, evalSpec rn with
                   | some a, some b => some (a * b)
                   | _, _ => none) := evalSpec_unfold .mul (some ln) (some rn)
              rw [ha, hb] at h0
              exact h0
            obtain ⟨hr0, hrl, hrr⟩ := allInRange_parts hrange hev2
            obtain ⟨isl, hgl, hrunl⟩ := ihl ln rfl x harith.1 (hrl ln rfl) ha
            obtain ⟨isr, hgr, hrunr⟩ := ihr rn rfl y harith.2 (hrr rn rfl) hb
            refine ⟨isl ++ isr ++ [Instr.mul], ?_, ?_⟩
            · have h0 : genMain (.mk .mul (some ln) (some rn)) =
                  (match genMain ln with
                   | .error e => .error e
                   | .ok il =>
                     match genMain rn with
                     | .error e => .error e
                     | .ok ir => .ok (il ++ ir ++ [Instr.mul])) :=
                genMain_unfold .mul (some ln) (some rn)
              rw [hgl, hgr] at h0
              exact h0
            · intro js s
              rw [List.append_assoc, List.append_assoc, hrunl, hrunr]
              show runM js ((toWord x * toWord y) % wordM :: s) =
                runM js (toWord (x * y) :: s)
              rw [mul_toWord]
  | div =>
    cases l with
    | none =>
      rw [arithOnly_unfold] at harith
      simp at harith
    | some ln =>
      cases r with
      | none =>
        rw [arithOnly_unfold] at harith
        simp at harith
      | some rn =>
        rw [arithOnly_unfold] at harith
        simp at harith
        have heval2 : (match evalSpec ln, evalSpec rn with
            | some x, some y => if y = 0 then none else some (x.tdiv y)
            | _, _ => none) = some v := heval
        cases ha : evalSpec ln with
        | none =>
          cases hb : evalSpec rn with
          | none => rw [ha, hb] at heval2; simp at heval2
          | some y => rw [ha, hb] at heval2; simp at heval2
        | some x =>
          cases hb : evalSpec rn with
          | none => rw [ha, hb] at heval2; simp at heval2
          | some y =>
            rw [ha, hb] at heval2
            have heval3 : (if y = 0 then none else some (x.tdiv y)) = some v := heval2
            by_cases hy : y = 0
            · rw [if_pos hy] at heval3
              cases heval3
            · rw [if_neg hy] at heval3
              obtain rfl : x.tdiv y = v := Option.some.inj heval3
              have hev2 : evalSpec (.mk .div (some ln) (some rn)) = some (x.tdiv y) := by
                have h0 : evalSpec (.mk .div (some ln) (some rn)) =
                    (match evalSpec ln, evalSpec rn with
                     | some a, some b => if b = 0 then none else some (a.tdiv b)
                     | _, _ => none) := evalSpec_unfold .div (some ln) (some rn)
                rw [ha, hb] at h0
                rw [h0]
                exact if_neg hy
              obtain ⟨hr0, hrl, hrr⟩ := allInRange_parts hrange hev2
              obtain ⟨isl, hgl, hrunl⟩ := ihl ln rfl x harith.1 (hrl ln rfl) ha
              obtain ⟨isr, hgr, hrunr⟩ := ihr rn rfl y harith.2 (hrr rn rfl) hb
              have hbx := inRangeB_bounds (allInRange_root (hrl ln rfl) ha)
              have hby := inRangeB_bounds (allInRange_root (hrr rn rfl) hb)
              have hbv := inRangeB_bounds hr0
              have hfault : ¬(x.tdiv y < -halfM ∨ halfM ≤ x.tdiv y) := by
                intro hcon
                rcases hcon with hlt | hge <;> omega
              refine ⟨isl ++ isr ++ [.div], ?_, ?_⟩
              · have h0 : genMain (.mk .div (some ln) (some rn)) =
                    (match genMain ln with
                     | .error e => .error e
                     | .ok il =>
                       match genMain rn with
                       | .error e => .error e
                       | .ok ir => .ok (il ++ ir ++ [Instr.div])) :=
                  genMain_unfold .div (some ln) (some rn)
                rw [hgl, hgr] at h0
                exact h0
              · intro js s
                rw [List.append_assoc, List.append_assoc, hrunl, hrunr]
                have hstep : runM ([Instr.div] ++ js) (toWord y :: toWord x :: s) =
                    (if toSInt (toWord y) = 0 then none
                     else if (toSInt (toWord x)).tdiv (toSInt (toWord y)) < -halfM ∨
                         halfM ≤ (toSInt (toWord x)).tdiv (toSInt (toWord y)) then none
                     else runM js ((toSInt (toWord x)).tdiv (toSInt (toWord y)) % wordM :: s)) := rfl
                rw [hstep, toSInt_toWord hbx.1 hbx.2, toSInt_toWord hby.1 hby.2,
                  if_neg hy, if_neg hfault]
                rfl
  | eq =>
    rw [arithOnly_unfold] at harith
    simp at harith
  | neq =>
    rw [arithOnly_unfold] at harith
    simp at harith
  | lt =>
    rw [arithOnly_unfold] at harith
    simp at harith
  | leq =>
    rw [arithOnly_unfold] at harith
    simp at harith
  | gt =>
    rw [arithOnly_unfold] at harith
    simp at harith
  | geq =>
    rw [arithOnly_unfold] at harith
    simp at harith

/-- Claim C1, counterexample: the grammar produces comparison ASTs — the
pipeline parses "1==1" to Eq(Num(1),Num(1)) and direct evaluation gives
1 — but `gen_main` has no case for comparison operators: it falls into
its "Expected binary operator" error arm, so the stack machine produces
no value at all, let alone 1. -/
theorem C1_counterexample :
    astOf "1==1" = some (Node.bin .eq (Node.newNum 1) (Node.newNum 1)) ∧
    evalSpec (Node.bin .eq (Node.newNum 1) (Node.newNum 1)) = some 1 ∧
    genMain (Node.bin .eq (Node.newNum 1) (Node.newNum 1)) =
      .error (.notBinary .eq) ∧
    machineEval (Node.bin .eq (Node.newNum 1) (Node.newNum 1)) = none :=
  ⟨rfl, by decide, rfl, rfl⟩

/-- Claim C1, amended: restricted to ASTs whose operators are only
`Add`/`Sub`/`Mul`/`Div` (the ones `gen_main` implements), with every
node's value in the signed 64-bit range and no division by zero,
simulating the generated stack-machine code yields exactly the word
representing the direct evaluation result, and reading that word back as
a signed 64-bit value gives the direct result itself. -/
theorem C1_amended (e : Node) (v : Int) (h1 : arithOnly e = true)
    (h2 : allInRange e = true) (h3 : evalSpec e = some v) :
    machineEval e = some (toWord v) ∧ toSInt (toWord v) = v := by
  obtain ⟨is, hg, hrun⟩ := genMain_correct e v h1 h2 h3
  constructor
  · have h4 := hrun [] []
    rw [List.append_nil] at h4
    have h5 : runM [] [toWord v] = some [toWord v] := rfl
    rw [h5] at h4
    simp [machineEval, hg, h4]
  · have hb := inRangeB_bounds (allInRange_root h2 h3)
    exact toSInt_toWord hb.1 hb.2

/-- Witness for C1: the amended theorem applied to the AST of "-5",
whose machine value is the wrapped word 2^64 - 5 and whose signed
reading is -5. -/
theorem C1_witness :
    machineEval (Node.bin .sub (Node.newNum 0) (Node.newNum 5)) =
      some (toWord (-5)) ∧ toSInt (toWord (-5)) = -5 :=
  C1_amended (Node.bin .sub (Node.newNum 0) (Node.newNum 5)) (-5)
    (by decide) (by decide) (by decide)

end Rust9cc
